import Mathlib

/-
Shallow embedding of `src/managers/features.rs` from the
`nightly-rust-features` repository: a single-flight, wait-for-completion
feature-flag cache.  Wakers are modelled as numeric task identifiers;
"waking" an operation's wakers is modelled by returning the list of woken
waker ids.  A Rust `panic!` (from `.unwrap()`) is modelled by returning
`none` from the operation.  The filesystem and the JSON parser are
parameters (`fs : String → Option String`, `parse : String → Option
Feature`): `fs name = none` models a failing `read_to_string`, and
`parse s = none` models a `serde_json` error.
-/

namespace Features

/-- A waker handle, modelled as a task identifier. -/
abbrev Waker := Nat

/-- Modelled from the spec: `crate::models::Feature` is not under `src/`.
The spec treats a FlagRecord as "an opaque, successfully-parsed definition";
we model it as an opaque wrapper around its raw content. -/
structure Feature where
  data : String
deriving DecidableEq, Repr

/-- Embeds `enum LoadProgress { Done, Loading(HashSet<String>) }`.
The `HashSet` is modelled as a list of names; the code only inserts a name
after checking `contains`, so it stays duplicate-free. -/
inductive LoadProgress where
  | Done : LoadProgress
  | Loading : List String → LoadProgress
deriving DecidableEq, Repr

/-- Embeds `LoadProgress::is_done`. -/
def LoadProgress.is_done : LoadProgress → Bool
  | .Done => true
  | .Loading _ => false

/-- Lookup in an association-list model of a `DashMap` (first match). -/
def mapGet {α : Type} : List (String × α) → String → Option α
  | [], _ => none
  | (k, v) :: rest, key => if k = key then some v else mapGet rest key

/-- Insert into an association-list model of a `DashMap`: replaces the value
at an existing key in place, otherwise appends. -/
def mapInsert {α : Type} : List (String × α) → String → α → List (String × α)
  | [], key, v => [(key, v)]
  | (k, w) :: rest, key, v =>
    if k = key then (k, v) :: rest else (k, w) :: mapInsert rest key v

/-- Embeds `struct FeatureManager`: the cache (`DashMap<String, Feature>`),
the load-progress tracker (`Mutex<LoadProgress>`), the global completion
waiters (`Mutex<Vec<Waker>>`) and the per-name waiters
(`DashMap<String, Vec<Waker>>`). -/
structure FeatureManager where
  cache : List (String × Feature)
  load_progress : LoadProgress
  done_wakers : List Waker
  feature_wakers : List (String × List Waker)
deriving DecidableEq, Repr

/-- The in-flight name set of a manager state (empty once `Done`). -/
def FeatureManager.inFlight (m : FeatureManager) : List String :=
  match m.load_progress with
  | .Done => []
  | .Loading fl => fl

/-- Embeds `FeatureManager::is_done_loading`. -/
def FeatureManager.is_done_loading (m : FeatureManager) : Bool :=
  m.load_progress.is_done

/-- The state constructed by `FeatureManager::new` (before the spawned
loader task has run): empty cache, `Loading` with an empty in-flight set,
no registered wakers. -/
def FeatureManager.new : FeatureManager :=
  { cache := []
    load_progress := .Loading []
    done_wakers := []
    feature_wakers := [] }

/-- Embeds `<FeatureListFuture as Future>::poll`.  Returns the poll result
(`none` = `Poll::Pending`, `some records` = `Poll::Ready(records)`) together
with the successor state (`Pending` registers the caller's waker in
`done_wakers`). -/
def FeatureListFuture.poll (m : FeatureManager) (w : Waker) :
    Option (List Feature) × FeatureManager :=
  match m.load_progress with
  | .Done => (some (m.cache.map Prod.snd), m)
  | .Loading _ => (none, { m with done_wakers := m.done_wakers ++ [w] })

/-- Embeds `<FeatureFuture as Future>::poll`.  Returns the poll result
(`none` = `Poll::Pending`, `some r` = `Poll::Ready(r)` where `r` is the
cache lookup) together with the successor state (`Pending` registers the
caller's waker under the requested name in `feature_wakers`). -/
def FeatureFuture.poll (m : FeatureManager) (name : String) (w : Waker) :
    Option (Option Feature) × FeatureManager :=
  if m.is_done_loading then
    (some (mapGet m.cache name), m)
  else
    match mapGet m.feature_wakers name with
    | some ws =>
      (none, { m with feature_wakers := mapInsert m.feature_wakers name (ws ++ [w]) })
    | none =>
      (none, { m with feature_wakers := mapInsert m.feature_wakers name [w] })

/-- Embeds `FeatureManager::load_feature`.  Result `none` models the panic
of `read_to_string(..).unwrap()` when the file read fails; otherwise the
result carries the successor state, whether a read-and-parse of the file
was performed, and the list of per-name wakers woken by this call. -/
def FeatureManager.load_feature (fs : String → Option String)
    (parse : String → Option Feature) (name : String) (m : FeatureManager) :
    Option (FeatureManager × Bool × List Waker) :=
  match m.load_progress with
  | .Done => some (m, false, [])
  | .Loading fl =>
    if name ∈ fl then
      some (m, false, [])
    else
      let m1 := { m with load_progress := .Loading (name :: fl) }
      match fs name with
      | none => none
      | some json =>
        match parse json with
        | none => some (m1, true, [])
        | some feature =>
          let m2 := { m1 with cache := mapInsert m1.cache name feature }
          let m3 := { m2 with load_progress := .Loading ((name :: fl).erase name) }
          some (m3, true, (mapGet m3.feature_wakers name).getD [])

/-- A directory entry: the file name and whether the metadata says it is a
regular file (`entry.metadata().is_file()`).  Entries whose metadata read
fails behave like non-files: the loop only logs and moves on. -/
abbrev DirEntry := String × Bool

/-- The per-entry loop of `FeatureManager::load_all_features`: calls
`load_feature` for each regular-file entry in order; the wakers woken by
individual loads are events, not state, and are dropped here.  `none`
models a panic inside some `load_feature`. -/
def loadLoop (fs : String → Option String) (parse : String → Option Feature) :
    List DirEntry → FeatureManager → Option FeatureManager
  | [], m => some m
  | (name, isFile) :: rest, m =>
    if isFile then
      match m.load_feature fs parse name with
      | none => none
      | some (m', _, _) => loadLoop fs parse rest m'
    else
      loadLoop fs parse rest m

/-- Embeds `FeatureManager::load_all_features`.  `dir = none` models a
failing `read_dir("static/features")`, whose `.unwrap()` panics (result
`none`).  On success the result carries the final state (progress set to
`Done`) and the wakers woken at completion: every `done_wakers` entry
followed by every registered per-name waker. -/
def FeatureManager.load_all_features (dir : Option (List DirEntry))
    (fs : String → Option String) (parse : String → Option Feature)
    (m : FeatureManager) : Option (FeatureManager × List Waker) :=
  match dir with
  | none => none
  | some entries =>
    match loadLoop fs parse entries m with
    | none => none
    | some m1 =>
      let m2 := { m1 with load_progress := .Done }
      some (m2, m2.done_wakers ++ (m2.feature_wakers.map Prod.snd).flatten)

/-- One operation against the shared `FeatureManager` state: a poll of the
list-all query, a poll of a get query, one `load_feature` call, or the
whole `load_all_features` loader. -/
inductive Op where
  | pollList : Waker → Op
  | pollGet : String → Waker → Op
  | loadFeature : (String → Option String) → (String → Option Feature) → String → Op
  | loadAll : Option (List DirEntry) → (String → Option String) →
      (String → Option Feature) → Op

/-- The state transition of one operation (`none` = that operation
panicked). -/
def step : Op → FeatureManager → Option FeatureManager
  | .pollList w, m => some (FeatureListFuture.poll m w).2
  | .pollGet name w, m => some (FeatureFuture.poll m name w).2
  | .loadFeature fs parse name, m => (m.load_feature fs parse name).map (·.1)
  | .loadAll dir fs parse, m => (m.load_all_features dir fs parse).map (·.1)

/-- Run a sequence of operations, stopping with `none` if any panics. -/
def runOps : List Op → FeatureManager → Option FeatureManager
  | [], m => some m
  | op :: rest, m =>
    match step op m with
    | none => none
    | some m' => runOps rest m'

/-- Reading and then parsing a file: `some f` iff the read succeeds and the
content parses. -/
def parsedOk (fs : String → Option String) (parse : String → Option Feature)
    (name : String) : Option Feature :=
  match fs name with
  | none => none
  | some c => parse c

/-- The regular-file names of a directory listing, in scan order. -/
def filesOf (entries : List DirEntry) : List String :=
  (entries.filter (fun e => e.2)).map Prod.fst

/-- Repeated `load_feature` calls, counting how many of them performed a
read-and-parse of the file of `target`. -/
def loadCalls (fs : String → Option String) (parse : String → Option Feature)
    (target : String) : List String → FeatureManager → Option (FeatureManager × Nat)
  | [], m => some (m, 0)
  | n :: rest, m =>
    match m.load_feature fs parse n with
    | none => none
    | some (m', d, _) =>
      match loadCalls fs parse target rest m' with
      | none => none
      | some (mf, k) => some (mf, (if d = true ∧ n = target then 1 else 0) + k)

/-- Whether an operation is a poll of a get query for `name`. -/
def opQueries (name : String) : Op → Prop
  | .pollGet n _ => n = name
  | _ => False

/-- A name is blocked when it is in the in-flight set or loading is done:
in either case `load_feature` for it refuses to do any work. -/
def Blocked (name : String) (m : FeatureManager) : Prop :=
  name ∈ m.inFlight ∨ m.load_progress = .Done

/-- The loader invariant: after the loader has processed the file names in
`seen`, the state is still `Loading`; the in-flight set holds exactly the
seen names whose parse failed; the cache keys are duplicate-free and the
cache maps exactly the seen, successfully read-and-parsed names to their
records; and every seen name was readable (an unreadable one would have
panicked the loader). -/
def Inv (fs : String → Option String) (parse : String → Option Feature)
    (seen : List String) (m : FeatureManager) : Prop :=
  ∃ fl, m.load_progress = .Loading fl ∧
    (∀ n, n ∈ fl ↔ n ∈ seen ∧ parsedOk fs parse n = none) ∧
    (m.cache.map Prod.fst).Nodup ∧
    (∀ n, mapGet m.cache n = if n ∈ seen then parsedOk fs parse n else none) ∧
    (∀ n ∈ seen, (fs n).isSome)

/-- The result alphabet of the spec's `try_claim` operation. -/
inductive ClaimResult where
  | claimed : FeatureManager → ClaimResult
  | alreadyClaimed : ClaimResult
  | claimImpossible : ClaimResult

/-- Follows the spec's words (§4.2): `try_claim(name)` — while `Loading`,
atomically checks whether `name` is already in the in-flight set; if absent,
inserts it and returns "claimed"; if present, returns "already claimed";
returns "claim impossible" once state is `Done`.  Defined from the spec, to
be compared with the claim step of `load_feature`. -/
def specTryClaim (name : String) (m : FeatureManager) : ClaimResult :=
  match m.load_progress with
  | .Done => .claimImpossible
  | .Loading fl =>
    if name ∈ fl then .alreadyClaimed
    else .claimed { m with load_progress := .Loading (name :: fl) }

/-! ### Concrete instances used by witnesses and counterexamples -/

/-- A concrete filesystem: `a` holds parseable content, `b` holds content
that fails to parse, every other read fails. -/
def fsEx : String → Option String :=
  fun n => if n = "a" then some "GOOD" else if n = "b" then some "BAD" else none

/-- A concrete parser: only the content of `a` parses. -/
def parseEx : String → Option Feature :=
  fun c => if c = "GOOD" then some ⟨"ok"⟩ else none

/-- The record parsed from the content of `a`. -/
def featEx : Feature := ⟨"ok"⟩

/-- A fresh manager with waker `7` registered for name `b`. -/
def mWaitB : FeatureManager :=
  { cache := [], load_progress := .Loading [], done_wakers := [],
    feature_wakers := [("b", [7])] }

/-- A fresh manager with waker `7` registered for name `a`. -/
def mWaitA : FeatureManager :=
  { cache := [], load_progress := .Loading [], done_wakers := [],
    feature_wakers := [("a", [7])] }

/-- A completed manager holding the record of `a`. -/
def mDoneEx : FeatureManager :=
  { cache := [("a", featEx)], load_progress := .Done, done_wakers := [],
    feature_wakers := [] }

/-- A manager in which `a` is currently in flight. -/
def mInFlightA : FeatureManager :=
  { cache := [], load_progress := .Loading ["a"], done_wakers := [],
    feature_wakers := [] }

/-- The state after `load_feature` succeeds for `a` on `mWaitA`. -/
def mAfterA : FeatureManager :=
  { cache := [("a", featEx)], load_progress := .Loading [], done_wakers := [],
    feature_wakers := [("a", [7])] }

/-- The state after `load_feature` fails to parse `b` on `mWaitB`. -/
def mBadB : FeatureManager :=
  { cache := [], load_progress := .Loading ["b"], done_wakers := [],
    feature_wakers := [("b", [7])] }

/-- The state after the call sequence `[a, a, b]` on `mInFlightA`. -/
def mAfterCallsEx : FeatureManager :=
  { cache := [], load_progress := .Loading ["b", "a"], done_wakers := [],
    feature_wakers := [] }

/-- A still-loading manager whose cache already holds the record of `a`. -/
def mCachedA : FeatureManager :=
  { cache := [("a", featEx)], load_progress := .Loading [], done_wakers := [],
    feature_wakers := [] }

/-- A concrete directory listing: regular files `a` and `b`, plus a
non-file entry `x`. -/
def entriesEx : List DirEntry := [("a", true), ("b", true), ("x", false)]

/-- The state after the loader runs over `entriesEx` from a fresh manager. -/
def mLoadedEx : FeatureManager :=
  { cache := [("a", featEx)], load_progress := .Done, done_wakers := [],
    feature_wakers := [] }

/-! ### Association-list lemmas -/

theorem mapGet_mapInsert {α : Type} (l : List (String × α)) (k key : String) (v : α) :
    mapGet (mapInsert l k v) key = if k = key then some v else mapGet l key := by
  induction l with
  | nil => simp [mapInsert, mapGet]
  | cons hd tl ih =>
    obtain ⟨k', v'⟩ := hd
    by_cases h1 : k' = k
    · subst h1
      by_cases h2 : k' = key <;> simp [mapInsert, mapGet, h2]
    · by_cases h2 : k' = key
      · subst h2
        have h1' : ¬ k = k' := fun hk => h1 hk.symm
        simp [mapInsert, mapGet, h1, h1']
      · simp [mapInsert, mapGet, h1, h2, ih]

theorem mapGet_mapInsert_ne {α : Type} (l : List (String × α)) {k key : String}
    (v : α) (h : k ≠ key) : mapGet (mapInsert l k v) key = mapGet l key := by
  simp [mapGet_mapInsert, h]

theorem mapGet_isSome_iff_mem {α : Type} (l : List (String × α)) (k : String) :
    (mapGet l k).isSome ↔ k ∈ l.map Prod.fst := by
  induction l with
  | nil => simp [mapGet]
  | cons hd tl ih =>
    obtain ⟨k', v'⟩ := hd
    by_cases h : k' = k <;> simp [mapGet, h, ih]
    exact fun hk => absurd hk.symm h

theorem keys_mapInsert {α : Type} (l : List (String × α)) (k : String) (v : α) :
    (mapInsert l k v).map Prod.fst =
      if k ∈ l.map Prod.fst then l.map Prod.fst else l.map Prod.fst ++ [k] := by
  induction l with
  | nil => simp [mapInsert]
  | cons hd tl ih =>
    obtain ⟨k', v'⟩ := hd
    by_cases h : k' = k
    · subst h
      simp [mapInsert]
    · have h' : ¬ k = k' := fun hk => h hk.symm
      by_cases hmem : k ∈ tl.map Prod.fst <;> simp [mapInsert, h, h', hmem, ih]

theorem nodup_keys_mapInsert {α : Type} (l : List (String × α)) (k : String) (v : α)
    (h : (l.map Prod.fst).Nodup) : ((mapInsert l k v).map Prod.fst).Nodup := by
  rw [keys_mapInsert]
  by_cases hmem : k ∈ l.map Prod.fst
  · simpa [hmem] using h
  · simp only [hmem, if_false]
    exact List.Nodup.append h (List.nodup_singleton k) (by simpa using hmem)

/-! ### Case-analysis lemmas for `load_feature` -/

theorem load_feature_done {m : FeatureManager} (fs : String → Option String)
    (parse : String → Option Feature) (name : String)
    (hm : m.load_progress = .Done) :
    m.load_feature fs parse name = some (m, false, []) := by
  simp [FeatureManager.load_feature, hm]

theorem load_feature_inflight {m : FeatureManager} (fs : String → Option String)
    (parse : String → Option Feature) {name : String} {fl : List String}
    (hm : m.load_progress = .Loading fl) (hmem : name ∈ fl) :
    m.load_feature fs parse name = some (m, false, []) := by
  simp [FeatureManager.load_feature, hm, hmem]

theorem load_feature_read_fail {m : FeatureManager} {fs : String → Option String}
    (parse : String → Option Feature) {name : String} {fl : List String}
    (hm : m.load_progress = .Loading fl) (hmem : name ∉ fl)
    (hfs : fs name = none) :
    m.load_feature fs parse name = none := by
  simp [FeatureManager.load_feature, hm, hmem, hfs]

theorem load_feature_parse_fail {m : FeatureManager} {fs : String → Option String}
    {parse : String → Option Feature} {name : String} {fl : List String} {c : String}
    (hm : m.load_progress = .Loading fl) (hmem : name ∉ fl)
    (hfs : fs name = some c) (hp : parse c = none) :
    m.load_feature fs parse name =
      some ({ m with load_progress := .Loading (name :: fl) }, true, []) := by
  simp [FeatureManager.load_feature, hm, hmem, hfs, hp]

theorem load_feature_success {m : FeatureManager} {fs : String → Option String}
    {parse : String → Option Feature} {name : String} {fl : List String} {c : String}
    {f : Feature} (hm : m.load_progress = .Loading fl) (hmem : name ∉ fl)
    (hfs : fs name = some c) (hp : parse c = some f) :
    m.load_feature fs parse name =
      some ({ m with cache := mapInsert m.cache name f, load_progress := .Loading fl },
        true, (mapGet m.feature_wakers name).getD []) := by
  simp [FeatureManager.load_feature, hm, hmem, hfs, hp, List.erase_cons_head]

/-! ### Preservation lemmas -/

theorem load_feature_blocked {fs : String → Option String}
    {parse : String → Option Feature} {n name : String} {m m' : FeatureManager}
    {d : Bool} {wk : List Waker} (hb : Blocked name m)
    (h : m.load_feature fs parse n = some (m', d, wk)) :
    Blocked name m' ∧ (n = name → d = false) ∧
      mapGet m'.cache name = mapGet m.cache name := by
  cases hm : m.load_progress with
  | Done =>
    rw [load_feature_done fs parse n hm] at h
    obtain ⟨rfl, rfl, rfl⟩ := by exact Option.some.inj h
    exact ⟨hb, fun _ => rfl, rfl⟩
  | Loading fl =>
    have hbfl : name ∈ fl := by
      rcases hb with hb | hb
      · simpa [FeatureManager.inFlight, hm] using hb
      · rw [hm] at hb; exact absurd hb (by simp)
    by_cases hmem : n ∈ fl
    · rw [load_feature_inflight fs parse hm hmem] at h
      obtain ⟨rfl, rfl, rfl⟩ := by exact Option.some.inj h
      exact ⟨hb, fun _ => rfl, rfl⟩
    · have hne : n ≠ name := fun he => hmem (he ▸ hbfl)
      cases hfs : fs n with
      | none => rw [load_feature_read_fail parse hm hmem hfs] at h; cases h
      | some c =>
        cases hp : parse c with
        | none =>
          rw [load_feature_parse_fail hm hmem hfs hp] at h
          obtain ⟨rfl, rfl, rfl⟩ := by exact Option.some.inj h
          refine ⟨Or.inl ?_, fun he => absurd he hne, rfl⟩
          simp [FeatureManager.inFlight, hbfl]
        | some f =>
          rw [load_feature_success hm hmem hfs hp] at h
          obtain ⟨rfl, rfl, rfl⟩ := by exact Option.some.inj h
          refine ⟨Or.inl ?_, fun he => absurd he hne, ?_⟩
          · simp [FeatureManager.inFlight, hbfl]
          · exact mapGet_mapInsert_ne m.cache f hne

theorem loadLoop_blocked {fs : String → Option String}
    {parse : String → Option Feature} {name : String} :
    ∀ {entries : List DirEntry} {m mf : FeatureManager}, Blocked name m →
      loadLoop fs parse entries m = some mf →
      Blocked name mf ∧ mapGet mf.cache name = mapGet m.cache name := by
  intro entries
  induction entries with
  | nil =>
    intro m mf hb h
    obtain rfl := by exact Option.some.inj h
    exact ⟨hb, rfl⟩
  | cons e rest ih =>
    intro m mf hb h
    obtain ⟨n, isFile⟩ := e
    by_cases hf : isFile = true
    · subst hf
      simp only [loadLoop] at h
      cases hload : m.load_feature fs parse n with
      | none => rw [hload] at h; cases h
      | some r =>
        obtain ⟨m', d, wk⟩ := r
        rw [hload] at h
        obtain ⟨hb', _, hc'⟩ := load_feature_blocked hb hload
        obtain ⟨hbf, hcf⟩ := ih hb' h
        exact ⟨hbf, hcf.trans hc'⟩
    · have hf' : isFile = false := by simpa using hf
      subst hf'
      simp only [loadLoop] at h
      exact ih hb h

theorem load_all_features_blocked {dir : Option (List DirEntry)}
    {fs : String → Option String} {parse : String → Option Feature}
    {name : String} {m mf : FeatureManager} {wk : List Waker} (hb : Blocked name m)
    (h : m.load_all_features dir fs parse = some (mf, wk)) :
    Blocked name mf ∧ mapGet mf.cache name = mapGet m.cache name := by
  cases dir with
  | none => cases h
  | some entries =>
    simp only [FeatureManager.load_all_features] at h
    cases hloop : loadLoop fs parse entries m with
    | none => rw [hloop] at h; cases h
    | some m1 =>
      rw [hloop] at h
      obtain ⟨rfl, rfl⟩ := by exact Prod.mk.injEq .. ▸ Option.some.inj h
      obtain ⟨_, hc⟩ := loadLoop_blocked hb hloop
      exact ⟨Or.inr rfl, hc⟩

theorem step_blocked {op : Op} {name : String} {m m' : FeatureManager}
    (hb : Blocked name m) (h : step op m = some m') :
    Blocked name m' ∧ mapGet m'.cache name = mapGet m.cache name := by
  cases op with
  | pollList w =>
    obtain rfl := by exact Option.some.inj h
    cases hm : m.load_progress with
    | Done => simp [FeatureListFuture.poll, hm]; exact hb
    | Loading fl =>
      refine ⟨?_, ?_⟩ <;> simp [FeatureListFuture.poll, hm]
      · rcases hb with hb | hb
        · exact Or.inl (by simpa [FeatureManager.inFlight, hm] using hb)
        · rw [hm] at hb; exact absurd hb (by simp)
  | pollGet n w =>
    obtain rfl := by exact Option.some.inj h
    by_cases hd : m.is_done_loading
    · simp [FeatureFuture.poll, hd]; exact hb
    · simp only [FeatureFuture.poll, hd, Bool.false_eq_true, if_false]
      cases hget : mapGet m.feature_wakers n <;>
        simpa [hget, Blocked, FeatureManager.inFlight] using hb
  | loadFeature fs parse n =>
    simp only [step, Option.map_eq_some'] at h
    obtain ⟨⟨m1, d, wk⟩, hload, rfl⟩ := h
    obtain ⟨hb', _, hc⟩ := load_feature_blocked hb hload
    exact ⟨hb', hc⟩
  | loadAll dir fs parse =>
    simp only [step, Option.map_eq_some'] at h
    obtain ⟨⟨m1, wk⟩, hload, rfl⟩ := h
    exact load_all_features_blocked hb hload

theorem runOps_blocked {name : String} :
    ∀ {ops : List Op} {m mf : FeatureManager}, Blocked name m →
      runOps ops m = some mf →
      Blocked name mf ∧ mapGet mf.cache name = mapGet m.cache name := by
  intro ops
  induction ops with
  | nil =>
    intro m mf hb h
    obtain rfl := by exact Option.some.inj h
    exact ⟨hb, rfl⟩
  | cons op rest ih =>
    intro m mf hb h
    simp only [runOps] at h
    cases hstep : step op m with
    | none => rw [hstep] at h; cases h
    | some m' =>
      rw [hstep] at h
      obtain ⟨hb', hc'⟩ := step_blocked hb hstep
      obtain ⟨hbf, hcf⟩ := ih hb' h
      exact ⟨hbf, hcf.trans hc'⟩

/-! ### A `Done` state is a fixpoint of every operation -/

theorem done_state_eta {m : FeatureManager} (hm : m.load_progress = .Done) :
    { m with load_progress := LoadProgress.Done } = m := by
  obtain ⟨c, lp, dw, fw⟩ := m
  simp only at hm
  rw [hm]

theorem loadLoop_done_fix {fs : String → Option String}
    {parse : String → Option Feature} {m : FeatureManager}
    (hm : m.load_progress = .Done) :
    ∀ entries : List DirEntry, loadLoop fs parse entries m = some m := by
  intro entries
  induction entries with
  | nil => rfl
  | cons e rest ih =>
    obtain ⟨n, isFile⟩ := e
    cases isFile with
    | true => simp only [loadLoop, if_true, load_feature_done fs parse n hm, ih]
    | false => simpa only [loadLoop, if_false] using ih

theorem load_all_features_done_fix {fs : String → Option String}
    {parse : String → Option Feature} {m : FeatureManager}
    (hm : m.load_progress = .Done) (entries : List DirEntry) :
    m.load_all_features (some entries) fs parse =
      some (m, m.done_wakers ++ (m.feature_wakers.map Prod.snd).flatten) := by
  simp only [FeatureManager.load_all_features, loadLoop_done_fix hm entries,
    done_state_eta hm]

theorem step_done_fix {op : Op} {m m' : FeatureManager}
    (hm : m.load_progress = .Done) (h : step op m = some m') : m' = m := by
  cases op with
  | pollList w =>
    obtain rfl := by exact Option.some.inj h
    simp [FeatureListFuture.poll, hm]
  | pollGet n w =>
    obtain rfl := by exact Option.some.inj h
    simp [FeatureFuture.poll, FeatureManager.is_done_loading, LoadProgress.is_done, hm]
  | loadFeature fs parse n =>
    simp only [step, load_feature_done fs parse n hm, Option.map_some'] at h
    exact (Option.some.inj h).symm
  | loadAll dir fs parse =>
    cases dir with
    | none => cases h
    | some entries =>
      simp only [step, load_all_features_done_fix hm entries, Option.map_some'] at h
      exact (Option.some.inj h).symm

theorem runOps_done_fix :
    ∀ {ops : List Op} {m mf : FeatureManager}, m.load_progress = .Done →
      runOps ops m = some mf → mf = m := by
  intro ops
  induction ops with
  | nil =>
    intro m mf _ h
    exact (Option.some.inj h).symm
  | cons op rest ih =>
    intro m mf hm h
    simp only [runOps] at h
    cases hstep : step op m with
    | none => rw [hstep] at h; cases h
    | some m' =>
      rw [hstep] at h
      obtain rfl := step_done_fix hm hstep
      exact ih hm h

/-! ### The per-name waiter registry is modified only by get-query polls -/

theorem load_feature_wakers_eq {fs : String → Option String}
    {parse : String → Option Feature} {n : String} {m m' : FeatureManager}
    {d : Bool} {wk : List Waker} (h : m.load_feature fs parse n = some (m', d, wk)) :
    m'.feature_wakers = m.feature_wakers ∧ m'.done_wakers = m.done_wakers := by
  cases hm : m.load_progress with
  | Done =>
    rw [load_feature_done fs parse n hm] at h
    obtain ⟨rfl, rfl, rfl⟩ := by exact Option.some.inj h
    exact ⟨rfl, rfl⟩
  | Loading fl =>
    by_cases hmem : n ∈ fl
    · rw [load_feature_inflight fs parse hm hmem] at h
      obtain ⟨rfl, rfl, rfl⟩ := by exact Option.some.inj h
      exact ⟨rfl, rfl⟩
    · cases hfs : fs n with
      | none => rw [load_feature_read_fail parse hm hmem hfs] at h; cases h
      | some c =>
        cases hp : parse c with
        | none =>
          rw [load_feature_parse_fail hm hmem hfs hp] at h
          obtain ⟨rfl, rfl, rfl⟩ := by exact Option.some.inj h
          exact ⟨rfl, rfl⟩
        | some f =>
          rw [load_feature_success hm hmem hfs hp] at h
          obtain ⟨rfl, rfl, rfl⟩ := by exact Option.some.inj h
          exact ⟨rfl, rfl⟩

theorem loadLoop_wakers_eq {fs : String → Option String}
    {parse : String → Option Feature} :
    ∀ {entries : List DirEntry} {m mf : FeatureManager},
      loadLoop fs parse entries m = some mf →
      mf.feature_wakers = m.feature_wakers ∧ mf.done_wakers = m.done_wakers := by
  intro entries
  induction entries with
  | nil =>
    intro m mf h
    obtain rfl := by exact Option.some.inj h
    exact ⟨rfl, rfl⟩
  | cons e rest ih =>
    intro m mf h
    obtain ⟨n, isFile⟩ := e
    cases isFile with
    | true =>
      simp only [loadLoop, if_true] at h
      cases hload : m.load_feature fs parse n with
      | none => rw [hload] at h; cases h
      | some r =>
        obtain ⟨m', d, wk⟩ := r
        rw [hload] at h
        obtain ⟨h1, h2⟩ := load_feature_wakers_eq hload
        obtain ⟨h3, h4⟩ := ih h
        exact ⟨h3.trans h1, h4.trans h2⟩
    | false =>
      simp only [loadLoop, if_false] at h
      exact ih h

theorem load_all_features_wakers_eq {dir : Option (List DirEntry)}
    {fs : String → Option String} {parse : String → Option Feature}
    {m mf : FeatureManager} {wk : List Waker}
    (h : m.load_all_features dir fs parse = some (mf, wk)) :
    mf.feature_wakers = m.feature_wakers := by
  cases dir with
  | none => cases h
  | some entries =>
    simp only [FeatureManager.load_all_features] at h
    cases hloop : loadLoop fs parse entries m with
    | none => rw [hloop] at h; cases h
    | some m1 =>
      rw [hloop] at h
      obtain ⟨rfl, rfl⟩ := by exact Prod.mk.injEq .. ▸ Option.some.inj h
      exact (loadLoop_wakers_eq hloop).1

theorem step_wakers {op : Op} {name : String} {m m' : FeatureManager}
    (hq : ¬ opQueries name op) (h : step op m = some m') :
    mapGet m'.feature_wakers name = mapGet m.feature_wakers name := by
  cases op with
  | pollList w =>
    obtain rfl := by exact Option.some.inj h
    cases hm : m.load_progress <;> simp [FeatureListFuture.poll, hm]
  | pollGet n w =>
    have hne : n ≠ name := hq
    obtain rfl := by exact Option.some.inj h
    by_cases hd : m.is_done_loading
    · simp [FeatureFuture.poll, hd]
    · simp only [FeatureFuture.poll, hd, Bool.false_eq_true, if_false]
      cases hget : mapGet m.feature_wakers n <;>
        simp [hget, mapGet_mapInsert_ne _ _ hne]
  | loadFeature fs parse n =>
    simp only [step, Option.map_eq_some'] at h
    obtain ⟨⟨m1, d, wk⟩, hload, rfl⟩ := h
    rw [(load_feature_wakers_eq hload).1]
  | loadAll dir fs parse =>
    simp only [step, Option.map_eq_some'] at h
    obtain ⟨⟨m1, wk⟩, hload, rfl⟩ := h
    rw [load_all_features_wakers_eq hload]

theorem runOps_wakers {name : String} :
    ∀ {ops : List Op} {m mf : FeatureManager},
      (∀ op ∈ ops, ¬ opQueries name op) → runOps ops m = some mf →
      mapGet mf.feature_wakers name = mapGet m.feature_wakers name := by
  intro ops
  induction ops with
  | nil =>
    intro m mf _ h
    obtain rfl := by exact Option.some.inj h
    rfl
  | cons op rest ih =>
    intro m mf hq h
    simp only [runOps] at h
    cases hstep : step op m with
    | none => rw [hstep] at h; cases h
    | some m' =>
      rw [hstep] at h
      have h1 := step_wakers (hq op (by simp)) hstep
      have h2 := ih (fun o ho => hq o (by simp [ho])) h
      exact h2.trans h1

/-! ### The loader invariant -/

theorem Inv_new (fs : String → Option String) (parse : String → Option Feature) :
    Inv fs parse [] FeatureManager.new := by
  refine ⟨[], rfl, by simp, by simp [FeatureManager.new], ?_, by simp⟩
  intro n
  simp [FeatureManager.new, mapGet]

theorem load_feature_inv {fs : String → Option String}
    {parse : String → Option Feature} {name : String} {seen : List String}
    {m m' : FeatureManager} {d : Bool} {wk : List Waker}
    (hinv : Inv fs parse seen m)
    (h : m.load_feature fs parse name = some (m', d, wk)) :
    Inv fs parse (seen ++ [name]) m' := by
  obtain ⟨fl, hlp, hfl, hnd, hcache, hfss⟩ := hinv
  by_cases hmem : name ∈ fl
  · rw [load_feature_inflight fs parse hlp hmem] at h
    obtain ⟨rfl, rfl, rfl⟩ := by exact Option.some.inj h
    have hseen : name ∈ seen := ((hfl name).1 hmem).1
    have hmemiff : ∀ n, n ∈ seen ++ [name] ↔ n ∈ seen := by
      intro n
      simp only [List.mem_append, List.mem_singleton]
      exact ⟨fun hn => hn.elim id (fun he => he ▸ hseen), Or.inl⟩
    refine ⟨fl, hlp, ?_, hnd, ?_, ?_⟩
    · intro n; rw [hmemiff n]; exact hfl n
    · intro n; rw [if_congr (hmemiff n) rfl rfl]; exact hcache n
    · intro n hn; exact hfss n ((hmemiff n).1 hn)
  · cases hfs0 : fs name with
    | none => rw [load_feature_read_fail parse hlp hmem hfs0] at h; cases h
    | some c =>
      cases hp : parse c with
      | none =>
        rw [load_feature_parse_fail hlp hmem hfs0 hp] at h
        obtain ⟨rfl, rfl, rfl⟩ := by exact Option.some.inj h
        have hpok : parsedOk fs parse name = none := by simp [parsedOk, hfs0, hp]
        have hnots : name ∉ seen := fun hs => hmem ((hfl name).2 ⟨hs, hpok⟩)
        refine ⟨name :: fl, rfl, ?_, hnd, ?_, ?_⟩
        · intro n
          constructor
          · intro hn
            rcases List.mem_cons.1 hn with rfl | hn
            · exact ⟨List.mem_append.2 (Or.inr (List.mem_singleton.2 rfl)), hpok⟩
            · obtain ⟨h1, h2⟩ := (hfl n).1 hn
              exact ⟨List.mem_append.2 (Or.inl h1), h2⟩
          · rintro ⟨hs, h2⟩
            rcases List.mem_append.1 hs with hs | hs
            · exact List.mem_cons.2 (Or.inr ((hfl n).2 ⟨hs, h2⟩))
            · exact List.mem_cons.2 (Or.inl (List.mem_singleton.1 hs))
        · intro n
          by_cases hne : n = name
          · subst hne
            have := hcache n
            simp only [hnots, if_false] at this
            simp [this, hpok]
          · have hiff : (n ∈ seen ++ [name]) ↔ n ∈ seen := by
              simp only [List.mem_append, List.mem_singleton]
              exact ⟨fun hn => hn.elim id (fun he => absurd he hne), Or.inl⟩
            rw [if_congr hiff rfl rfl]
            exact hcache n
        · intro n hn
          rcases List.mem_append.1 hn with hs | hs
          · exact hfss n hs
          · rw [List.mem_singleton.1 hs, hfs0]; rfl
      | some f =>
        rw [load_feature_success hlp hmem hfs0 hp] at h
        obtain ⟨rfl, rfl, rfl⟩ := by exact Option.some.inj h
        have hpok : parsedOk fs parse name = some f := by simp [parsedOk, hfs0, hp]
        refine ⟨fl, rfl, ?_, nodup_keys_mapInsert m.cache name f hnd, ?_, ?_⟩
        · intro n
          constructor
          · intro hn
            obtain ⟨h1, h2⟩ := (hfl n).1 hn
            exact ⟨List.mem_append.2 (Or.inl h1), h2⟩
          · rintro ⟨hs, h2⟩
            rcases List.mem_append.1 hs with hs | hs
            · exact (hfl n).2 ⟨hs, h2⟩
            · rw [List.mem_singleton.1 hs] at h2
              rw [hpok] at h2
              cases h2
        · intro n
          rw [mapGet_mapInsert]
          by_cases hne : name = n
          · subst hne
            simp [hpok]
          · have hiff : (n ∈ seen ++ [name]) ↔ n ∈ seen := by
              simp only [List.mem_append, List.mem_singleton]
              exact ⟨fun hn => hn.elim id (fun he => absurd he.symm hne), Or.inl⟩
            rw [if_neg hne, if_congr hiff rfl rfl]
            exact hcache n
        · intro n hn
          rcases List.mem_append.1 hn with hs | hs
          · exact hfss n hs
          · rw [List.mem_singleton.1 hs, hfs0]; rfl

theorem filesOf_cons_file (n : String) (rest : List DirEntry) :
    filesOf ((n, true) :: rest) = n :: filesOf rest := by
  simp [filesOf]

theorem filesOf_cons_nonfile (n : String) (rest : List DirEntry) :
    filesOf ((n, false) :: rest) = filesOf rest := by
  simp [filesOf]

theorem loadLoop_inv {fs : String → Option String}
    {parse : String → Option Feature} :
    ∀ {entries : List DirEntry} {seen : List String} {m mf : FeatureManager},
      Inv fs parse seen m → loadLoop fs parse entries m = some mf →
      Inv fs parse (seen ++ filesOf entries) mf := by
  intro entries
  induction entries with
  | nil =>
    intro seen m mf hinv h
    obtain rfl := by exact Option.some.inj h
    simpa [filesOf] using hinv
  | cons e rest ih =>
    intro seen m mf hinv h
    obtain ⟨n, isFile⟩ := e
    cases isFile with
    | true =>
      simp only [loadLoop, if_true] at h
      cases hload : m.load_feature fs parse n with
      | none => rw [hload] at h; cases h
      | some r =>
        obtain ⟨m', d, wk⟩ := r
        rw [hload] at h
        have hinv' := load_feature_inv hinv hload
        have := ih hinv' h
        rw [filesOf_cons_file]
        simpa [List.append_assoc] using this
    | false =>
      simp only [loadLoop, if_false] at h
      rw [filesOf_cons_nonfile]
      exact ih hinv h

theorem loadCalls_blocked {fs : String → Option String}
    {parse : String → Option Feature} {target : String} :
    ∀ {calls : List String} {m mf : FeatureManager} {k : Nat},
      Blocked target m → loadCalls fs parse target calls m = some (mf, k) → k = 0 := by
  intro calls
  induction calls with
  | nil =>
    intro m mf k _ h
    obtain ⟨rfl, rfl⟩ := by exact Prod.mk.injEq .. ▸ Option.some.inj h
    rfl
  | cons n rest ih =>
    intro m mf k hb h
    cases hload : m.load_feature fs parse n with
    | none => simp only [loadCalls, hload] at h; cases h
    | some r =>
      obtain ⟨m', d, wk⟩ := r
      simp only [loadCalls, hload] at h
      obtain ⟨hb', hd, -⟩ := load_feature_blocked hb hload
      cases hrest : loadCalls fs parse target rest m' with
      | none => simp only [hrest] at h; cases h
      | some r' =>
        obtain ⟨mf', k'⟩ := r'
        simp only [hrest] at h
        obtain ⟨rfl, rfl⟩ := by exact Prod.mk.injEq .. ▸ Option.some.inj h
        have hk' : k' = 0 := ih hb' hrest
        by_cases hc : d = true ∧ n = target
        · rw [hd hc.2] at hc
          exact absurd hc.1 (by simp)
        · simp [hc, hk']

/-! ### The claims -/

/-- C1: for every state in which loading is not yet finished, a poll of the
list-all query (`FeatureListFuture`) does not resolve; and in every state
after loading is finished, it resolves with exactly the set of successfully
parsed records in the store, in some order, with no duplicate names. -/
theorem c1_list_all_exact (fs : String → Option String)
    (parse : String → Option Feature) (entries : List DirEntry) (w : Waker)
    (s' : FeatureManager) (woken : List Waker)
    (h : FeatureManager.new.load_all_features (some entries) fs parse = some (s', woken)) :
    (∀ (m : FeatureManager) (w' : Waker) (fl : List String),
      m.load_progress = .Loading fl → (FeatureListFuture.poll m w').1 = none) ∧
    (FeatureListFuture.poll s' w).1 = some (s'.cache.map Prod.snd) ∧
    (s'.cache.map Prod.fst).Nodup ∧
    (∀ n f, mapGet s'.cache n = some f ↔
      n ∈ filesOf entries ∧ parsedOk fs parse n = some f) := by
  refine ⟨?_, ?_⟩
  · intro m w' fl hm
    simp [FeatureListFuture.poll, hm]
  · simp only [FeatureManager.load_all_features] at h
    cases hloop : loadLoop fs parse entries FeatureManager.new with
    | none => rw [hloop] at h; cases h
    | some m1 =>
      rw [hloop] at h
      obtain ⟨rfl, rfl⟩ := by exact Prod.mk.injEq .. ▸ Option.some.inj h
      have hinv := loadLoop_inv (Inv_new fs parse) hloop
      rw [List.nil_append] at hinv
      obtain ⟨fl, -, -, hnd, hcache, -⟩ := hinv
      refine ⟨by simp [FeatureListFuture.poll], hnd, ?_⟩
      intro n f
      rw [show mapGet ({ m1 with load_progress := LoadProgress.Done } :
        FeatureManager).cache n = mapGet m1.cache n from rfl, hcache n]
      by_cases hmem : n ∈ filesOf entries
      · simp [hmem]
      · simp [hmem]

/-- C1 witness: the loader run over `entriesEx` (readable-and-parseable `a`,
unparseable `b`, non-file `x`) completes with a catalog holding exactly the
record of `a`. -/
theorem c1_witness :
    (FeatureListFuture.poll mLoadedEx 1).1 = some (mLoadedEx.cache.map Prod.snd) ∧
    (mLoadedEx.cache.map Prod.fst).Nodup ∧
    (mapGet mLoadedEx.cache "a" = some featEx ↔
      "a" ∈ filesOf entriesEx ∧ parsedOk fsEx parseEx "a" = some featEx) :=
  (fun H => ⟨H.2.1, H.2.2.1, H.2.2.2 "a" featEx⟩)
    (c1_list_all_exact fsEx parseEx entriesEx 1 mLoadedEx [] rfl)

/-- C2 counterexample: with waker `7` registered for `b`, `load_feature`
claims `b`, its parse fails and the call terminates, yet `b` is still in the
in-flight set and the woken-waker list is empty — the claim's "release the
claim, then wake every registered per-name waiter" fails on the
parse-failure path. -/
theorem c2_counterexample :
    FeatureManager.load_feature fsEx parseEx "b" mWaitB = some (mBadB, true, []) ∧
    "b" ∈ mBadB.inFlight ∧ mapGet mWaitB.feature_wakers "b" = some [7] :=
  ⟨rfl, by simp [mBadB, FeatureManager.inFlight], rfl⟩

/-- C2 amended: after `load_feature` has claimed a name and terminated
normally, the claim is released and the registered per-name waiters are
woken only when the parse succeeded; on parse failure the name stays in the
in-flight set and no waiter is woken. -/
theorem c2_amended_release_on_success {fs : String → Option String}
    {parse : String → Option Feature} {name : String} {m m' : FeatureManager}
    {fl : List String} {wk : List Waker}
    (hm : m.load_progress = .Loading fl) (hn : name ∉ fl)
    (h : m.load_feature fs parse name = some (m', true, wk)) :
    (∀ c f, fs name = some c → parse c = some f →
      name ∉ m'.inFlight ∧ wk = (mapGet m.feature_wakers name).getD []) ∧
    (∀ c, fs name = some c → parse c = none → name ∈ m'.inFlight ∧ wk = []) := by
  constructor
  · intro c f hfs hp
    rw [load_feature_success hm hn hfs hp] at h
    obtain ⟨rfl, -, rfl⟩ := by exact Option.some.inj h
    exact ⟨by simpa [FeatureManager.inFlight] using hn, rfl⟩
  · intro c hfs hp
    rw [load_feature_parse_fail hm hn hfs hp] at h
    obtain ⟨rfl, -, rfl⟩ := by exact Option.some.inj h
    exact ⟨by simp [FeatureManager.inFlight], rfl⟩

/-- C2 witness: the successful load of `a` with waker `7` registered
releases the claim and wakes exactly that waiter. -/
theorem c2_witness :
    "a" ∉ mAfterA.inFlight ∧ [7] = (mapGet mWaitA.feature_wakers "a").getD [] :=
  (@c2_amended_release_on_success fsEx parseEx "a" mWaitA mAfterA [] [7]
    rfl (by simp) rfl).1 "GOOD" featEx rfl rfl

/-- C3 counterexample: the read of `c` fails (`fsEx "c" = none`) and
`load_feature` panics (the `unwrap` of `read_to_string`), modelled as result
`none` — it does not "return normally". -/
theorem c3_counterexample :
    fsEx "c" = none ∧
    FeatureManager.load_feature fsEx parseEx "c" FeatureManager.new = none :=
  ⟨rfl, rfl⟩

/-- C3 amended: on a read failure `load_feature` panics; on a parse failure
it logs and returns normally, and the name is permanently absent from the
store — it stays out of the cache under every later sequence of operations,
with no retry. -/
theorem c3_amended_parse_fail_absent {fs : String → Option String}
    {parse : String → Option Feature} {name : String} {m : FeatureManager}
    {fl : List String} (hm : m.load_progress = .Loading fl) (hn : name ∉ fl)
    (hcache : mapGet m.cache name = none) :
    (fs name = none → m.load_feature fs parse name = none) ∧
    (∀ c, fs name = some c → parse c = none →
      ∃ m', m.load_feature fs parse name = some (m', true, []) ∧
        mapGet m'.cache name = none ∧ name ∈ m'.inFlight ∧
        ∀ ops mf, runOps ops m' = some mf → mapGet mf.cache name = none) := by
  constructor
  · intro hfs
    exact load_feature_read_fail parse hm hn hfs
  · intro c hfs hp
    refine ⟨{ m with load_progress := .Loading (name :: fl) },
      load_feature_parse_fail hm hn hfs hp, hcache, by simp [FeatureManager.inFlight], ?_⟩
    intro ops mf hrun
    have hb : Blocked name { m with load_progress := LoadProgress.Loading (name :: fl) } :=
      Or.inl (by simp [FeatureManager.inFlight])
    exact (runOps_blocked hb hrun).2.trans hcache

/-- C3 witness: the unparseable `b` is loaded from a fresh manager; the call
returns normally, `b` never enters the cache, and stays absent under any
later operations. -/
theorem c3_witness :
    ∃ m', FeatureManager.new.load_feature fsEx parseEx "b" = some (m', true, []) ∧
      mapGet m'.cache "b" = none ∧ "b" ∈ m'.inFlight ∧
      ∀ ops mf, runOps ops m' = some mf → mapGet mf.cache "b" = none :=
  (@c3_amended_parse_fail_absent fsEx parseEx "b" FeatureManager.new []
    rfl (by simp) rfl).2 "BAD" rfl rfl

/-- C4 counterexample: when directory enumeration fails (`dir = none`), the
loader does not drive the progress to `Done` — it panics
(`read_dir(..).unwrap()`, modelled as result `none`), so no completed state
is produced and no waiter is woken. -/
theorem c4_counterexample :
    FeatureManager.new.load_all_features none fsEx parseEx = none :=
  rfl

/-- C4 amended: if enumerating the source directory fails, the loader
panics instead of completing: `load_all_features` produces no final state
and no woken wakers (result `none`), so the progress never reaches `Done`
and registered waiters stay suspended forever. -/
theorem c4_amended_enumeration_panic (fs : String → Option String)
    (parse : String → Option Feature) (m : FeatureManager) :
    m.load_all_features none fs parse = none :=
  rfl

/-- C5: the load-progress state transitions only from `Loading` to `Done`:
no operation (a list poll, a get poll, `load_feature` or
`load_all_features`) ever sets the state back from `Done` to `Loading` — in
fact a `Done` state is left exactly unchanged by every operation sequence,
so the transition can happen at most once. -/
theorem c5_done_never_reverts (ops : List Op) (m mf : FeatureManager)
    (hD : m.load_progress = .Done) (h : runOps ops m = some mf) :
    mf = m ∧ mf.load_progress = .Done := by
  have he := runOps_done_fix hD h
  exact ⟨he, he ▸ hD⟩

/-- C5 witness: a completed state survives a list poll, a get poll, a
`load_feature` and a whole `load_all_features` unchanged. -/
theorem c5_witness :
    runOps [.pollList 1, .pollGet "a" 2, .loadFeature fsEx parseEx "a",
      .loadAll (some entriesEx) fsEx parseEx] mDoneEx = some mDoneEx ∧
    (mDoneEx = mDoneEx ∧ mDoneEx.load_progress = LoadProgress.Done) :=
  ⟨rfl, c5_done_never_reverts [.pollList 1, .pollGet "a" 2,
    .loadFeature fsEx parseEx "a", .loadAll (some entriesEx) fsEx parseEx]
    mDoneEx mDoneEx rfl rfl⟩

/-- C6 counterexample: two sequential `load_feature` invocations for `a`
from a fresh manager both read and parse the file — the first successful
load releases the claim while the state is still `Loading` and the cache is
never consulted, so the read-and-parse count is 2, not at most 1. -/
theorem c6_counterexample :
    (loadCalls fsEx parseEx "a" ["a", "a"] FeatureManager.new).map (fun r => r.2) =
      some 2 :=
  rfl

/-- C6 amended: single-flight holds only against the in-flight set and the
terminal state: while a name is in flight, or once loading is `Done`, any
number of further `load_feature` invocations performs zero read-and-parses
of that name's file; it does not hold across a completed successful load,
whose claim release re-enables a later read of the same name. -/
theorem c6_amended_single_flight_inflight {fs : String → Option String}
    {parse : String → Option Feature} {target : String} {calls : List String}
    {m mf : FeatureManager} {k : Nat}
    (hb : target ∈ m.inFlight ∨ m.load_progress = .Done)
    (h : loadCalls fs parse target calls m = some (mf, k)) : k = 0 :=
  loadCalls_blocked hb h

/-- C6 witness: with `a` in flight, the call sequence `[a, a, b]` performs
no read-and-parse of `a`'s file. -/
theorem c6_witness :
    loadCalls fsEx parseEx "a" ["a", "a", "b"] mInFlightA = some (mAfterCallsEx, 0) ∧
    (0 : Nat) = 0 :=
  ⟨rfl, @c6_amended_single_flight_inflight fsEx parseEx "a" ["a", "a", "b"]
    mInFlightA mAfterCallsEx 0
    (Or.inl (by simp [mInFlightA, FeatureManager.inFlight])) rfl⟩

/-- C7: once the load progress is `Done`, a poll of the list query and a
poll of a get query resolve immediately with the cache contents, return the
state completely unchanged (no waiter registration, no store or registry
modification), and re-polling gives the same results. -/
theorem c7_idempotent_after_done (m : FeatureManager) (name : String)
    (w w' : Waker) (hD : m.load_progress = .Done) :
    FeatureListFuture.poll m w = (some (m.cache.map Prod.snd), m) ∧
    FeatureFuture.poll m name w = (some (mapGet m.cache name), m) ∧
    FeatureListFuture.poll (FeatureListFuture.poll m w).2 w' =
      (some (m.cache.map Prod.snd), m) ∧
    FeatureFuture.poll (FeatureFuture.poll m name w).2 name w' =
      (some (mapGet m.cache name), m) := by
  have h1 : FeatureListFuture.poll m w = (some (m.cache.map Prod.snd), m) := by
    simp [FeatureListFuture.poll, hD]
  have h2 : FeatureFuture.poll m name w = (some (mapGet m.cache name), m) := by
    simp [FeatureFuture.poll, FeatureManager.is_done_loading, LoadProgress.is_done, hD]
  refine ⟨h1, h2, ?_, ?_⟩
  · rw [h1]
    simp [FeatureListFuture.poll, hD]
  · rw [h2]
    simp [FeatureFuture.poll, FeatureManager.is_done_loading, LoadProgress.is_done, hD]

/-- C7 witness: on the completed state holding the record of `a`, both
queries resolve immediately and leave the state untouched. -/
theorem c7_witness :
    FeatureListFuture.poll mDoneEx 1 = (some [featEx], mDoneEx) ∧
    FeatureFuture.poll mDoneEx "a" 1 = (some (some featEx), mDoneEx) :=
  ⟨(c7_idempotent_after_done mDoneEx "a" 1 2 rfl).1,
   (c7_idempotent_after_done mDoneEx "a" 1 2 rfl).2.1⟩

/-- C8 counterexample: the load of `a` finishes successfully with waker `7`
registered for it; the waiter is woken but the registry entry for `a` is
not removed or drained — it still maps `a` to `[7]`. -/
theorem c8_counterexample :
    FeatureManager.load_feature fsEx parseEx "a" mWaitA = some (mAfterA, true, [7]) ∧
    mapGet mAfterA.feature_wakers "a" = some [7] :=
  ⟨rfl, rfl⟩

/-- C8 amended: `load_feature` never removes (or otherwise modifies) a
per-name waiter registry entry — finished loads leave the registry exactly
as it was; the second half of the claim stands: a name for which no get
query is ever polled never acquires a registry entry. -/
theorem c8_amended_registry :
    (∀ (fs : String → Option String) (parse : String → Option Feature)
      (n : String) (m m' : FeatureManager) (d : Bool) (wk : List Waker),
      m.load_feature fs parse n = some (m', d, wk) →
      m'.feature_wakers = m.feature_wakers) ∧
    (∀ (name : String) (ops : List Op) (m mf : FeatureManager),
      mapGet m.feature_wakers name = none → (∀ op ∈ ops, ¬ opQueries name op) →
      runOps ops m = some mf → mapGet mf.feature_wakers name = none) := by
  constructor
  · intro fs parse n m m' d wk h
    exact (load_feature_wakers_eq h).1
  · intro name ops m mf hnone hq hrun
    exact (runOps_wakers hq hrun).trans hnone

/-- C8 witness: the successful load of `a` leaves the registry unchanged,
and the never-queried name `z` has no registry entry after a full loader
run. -/
theorem c8_witness :
    mAfterA.feature_wakers = mWaitA.feature_wakers ∧
    mapGet mLoadedEx.feature_wakers "z" = none :=
  ⟨c8_amended_registry.1 fsEx parseEx "a" mWaitA mAfterA true [7] rfl,
   c8_amended_registry.2 "z" [.loadAll (some entriesEx) fsEx parseEx]
     FeatureManager.new mLoadedEx rfl
     (by rintro op hop; rw [List.mem_singleton] at hop; subst hop; exact fun hf => hf)
     rfl⟩

/-- C9: the claim step of `load_feature` satisfies the spec's `try_claim`
contract: when the claim is impossible (`Done`) or the name is already
claimed, the call returns without doing any work and without changing the
state; when the claim succeeds, the in-flight set gains the name and the
call proceeds to read and parse (panicking only if the read fails). -/
theorem c9_try_claim_contract (fs : String → Option String)
    (parse : String → Option Feature) (name : String) (m : FeatureManager) :
    (specTryClaim name m = .claimImpossible →
      m.load_feature fs parse name = some (m, false, [])) ∧
    (specTryClaim name m = .alreadyClaimed →
      m.load_feature fs parse name = some (m, false, [])) ∧
    (∀ m1, specTryClaim name m = .claimed m1 →
      m1.load_progress = .Loading (name :: m.inFlight) ∧
      (fs name = none → m.load_feature fs parse name = none) ∧
      (∀ c, fs name = some c →
        ∃ m' wk, m.load_feature fs parse name = some (m', true, wk))) := by
  cases hm : m.load_progress with
  | Done =>
    refine ⟨fun _ => load_feature_done fs parse name hm, fun hc => ?_, fun m1 hc => ?_⟩
    · rw [specTryClaim, hm] at hc
      cases hc
    · rw [specTryClaim, hm] at hc
      cases hc
  | Loading fl =>
    by_cases hmem : name ∈ fl
    · refine ⟨fun hc => ?_, fun _ => load_feature_inflight fs parse hm hmem,
        fun m1 hc => ?_⟩
      · simp only [specTryClaim, hm] at hc
        rw [if_pos hmem] at hc
        cases hc
      · simp only [specTryClaim, hm] at hc
        rw [if_pos hmem] at hc
        cases hc
    · refine ⟨fun hc => ?_, fun hc => ?_, fun m1 hc => ?_⟩
      · simp only [specTryClaim, hm] at hc
        rw [if_neg hmem] at hc
        cases hc
      · simp only [specTryClaim, hm] at hc
        rw [if_neg hmem] at hc
        cases hc
      · simp only [specTryClaim, hm] at hc
        rw [if_neg hmem] at hc
        injection hc with h1
        subst h1
        refine ⟨by simp [FeatureManager.inFlight, hm], ?_, ?_⟩
        · intro hfs
          exact load_feature_read_fail parse hm hmem hfs
        · intro c hfs
          cases hp : parse c with
          | none =>
            exact ⟨_, [], load_feature_parse_fail hm hmem hfs hp⟩
          | some f =>
            exact ⟨_, _, load_feature_success hm hmem hfs hp⟩

/-- C9 witness: the three contract cases at concrete states — `Done`
(claim impossible), `a` already in flight (already claimed), and a fresh
claim of `a` that proceeds to read and parse. -/
theorem c9_witness :
    mDoneEx.load_feature fsEx parseEx "a" = some (mDoneEx, false, []) ∧
    mInFlightA.load_feature fsEx parseEx "a" = some (mInFlightA, false, []) ∧
    ∃ m' wk, FeatureManager.new.load_feature fsEx parseEx "a" = some (m', true, wk) :=
  ⟨(c9_try_claim_contract fsEx parseEx "a" mDoneEx).1 rfl,
   (c9_try_claim_contract fsEx parseEx "a" mInFlightA).2.1 rfl,
   (((c9_try_claim_contract fsEx parseEx "a" FeatureManager.new).2.2
     mInFlightA rfl).2.2 "GOOD" rfl)⟩

/-- C10: a poll of a get query (`FeatureFuture`) returns `Pending` whenever
the load progress is still `Loading`, even when the requested record is
already in the cache, and registers the caller as a per-name waiter; a get
poll resolves exactly when the progress is `Done`. -/
theorem c10_get_pending_while_loading (m : FeatureManager) (name : String)
    (w : Waker) (fl : List String) (hm : m.load_progress = .Loading fl) :
    (FeatureFuture.poll m name w).1 = none ∧
    (∀ f, mapGet m.cache name = some f → (FeatureFuture.poll m name w).1 = none) ∧
    mapGet (FeatureFuture.poll m name w).2.feature_wakers name =
      some ((mapGet m.feature_wakers name).getD [] ++ [w]) ∧
    (∀ m' : FeatureManager,
      ((FeatureFuture.poll m' name w).1.isSome ↔ m'.load_progress = .Done)) := by
  have hnd : m.is_done_loading = false := by
    simp [FeatureManager.is_done_loading, LoadProgress.is_done, hm]
  have hpend : (FeatureFuture.poll m name w).1 = none := by
    simp only [FeatureFuture.poll, hnd, Bool.false_eq_true, if_false]
    cases hget : mapGet m.feature_wakers name <;> simp
  refine ⟨hpend, fun _ _ => hpend, ?_, ?_⟩
  · simp only [FeatureFuture.poll, hnd, Bool.false_eq_true, if_false]
    cases hget : mapGet m.feature_wakers name <;>
      simp [hget, mapGet_mapInsert]
  · intro m'
    cases hm' : m'.load_progress with
    | Done =>
      simp [FeatureFuture.poll, FeatureManager.is_done_loading,
        LoadProgress.is_done, hm']
    | Loading fl' =>
      have hnd' : m'.is_done_loading = false := by
        simp [FeatureManager.is_done_loading, LoadProgress.is_done, hm']
      simp only [FeatureFuture.poll, hnd', Bool.false_eq_true, if_false, hm']
      cases hget : mapGet m'.feature_wakers name <;> simp [hget]

/-- C10 witness: with the record of `a` already cached but loading still in
progress, a get poll for `a` stays pending and registers waker `5`. -/
theorem c10_witness :
    (FeatureFuture.poll mCachedA "a" 5).1 = none ∧
    mapGet mCachedA.cache "a" = some featEx ∧
    mapGet (FeatureFuture.poll mCachedA "a" 5).2.feature_wakers "a" = some [5] :=
  ⟨(c10_get_pending_while_loading mCachedA "a" 5 [] rfl).1, rfl,
   (c10_get_pending_while_loading mCachedA "a" 5 [] rfl).2.2.1⟩

end Features
